import Mathlib

/-!
Verification development for the Memoh per-user container filesystem
subsystem.  The Go sources are shallowly embedded: strings are modelled as
lists of characters (Go iterates runes; all inputs of interest are ASCII,
where bytes and runes agree), pure Go functions become Lean functions and
fallible Go functions return `Except`/`Option`.  A Go runtime panic (for
instance an out-of-range slice expression) is modelled by an explicit
`crash` outcome.
-/

/-- Character-list strings, the working representation of Go strings. -/
abbrev Str := List Char

/-- Go strings.Split with a single-character separator.  Always returns a
non-empty list; splitting the empty string yields one empty field, like Go. -/
def splitOnChar (sep : Char) : Str → List Str
  | [] => [[]]
  | c :: cs =>
    let r := splitOnChar sep cs
    if c = sep then [] :: r
    else
      match r with
      | [] => [[c]]
      | h :: t => (c :: h) :: t

/-- Go strings.HasPrefix. -/
def strHasPref (s pre : Str) : Bool := pre.isPrefixOf s

/-- Go strings.TrimPrefix: removes one copy of the prefix when present. -/
def trimPref (s pre : Str) : Str :=
  if pre.isPrefixOf s then s.drop pre.length else s

/-- Go unicode.IsSpace (the Unicode White_Space property). -/
def isGoSpace (c : Char) : Bool :=
  c = ' ' ∨ c = '\t' ∨ c = '\n' ∨ c = '\x0b' ∨ c = '\x0c' ∨ c = '\r' ∨
  c = '\x85' ∨ c = '\xa0' ∨ c = ' ' ∨
  (' ' ≤ c ∧ c ≤ ' ') ∨ c = ' ' ∨ c = ' ' ∨
  c = ' ' ∨ c = ' ' ∨ c = '　'

/-- Go strings.TrimSpace. -/
def trimSpace (s : Str) : Str :=
  ((s.dropWhile isGoSpace).reverse.dropWhile isGoSpace).reverse

/-- Go strings.SplitN(s, sep, 2) with a single-character separator. -/
def splitN2 (sep : Char) (s : Str) : List Str :=
  if s.contains sep then
    [s.takeWhile (· ≠ sep), (s.dropWhile (· ≠ sep)).drop 1]
  else [s]

/-- Decimal digit characters. -/
def isDigitCh (c : Char) : Bool := '0' ≤ c ∧ c ≤ '9'

/-- Decimal value of a digit string. -/
def digitsVal (s : Str) : Int :=
  s.foldl (fun acc c => acc * 10 + (c.toNat - '0'.toNat : Int)) 0

/-- Go strconv.Atoi on a 64-bit platform: optional sign, at least one
digit, every character a digit, value within the int64 range; any other
input is an error. -/
def goAtoi (s : Str) : Except Unit Int :=
  let sign : Int := if s.headD ' ' = '-' then -1 else 1
  let digits := if s.headD ' ' = '+' ∨ s.headD ' ' = '-' then s.drop 1 else s
  if digits = [] then .error ()
  else if ¬ digits.all isDigitCh then .error ()
  else
    let v := sign * digitsVal digits
    if v < -(2 ^ 63) ∨ 2 ^ 63 - 1 < v then .error () else .ok v

/-- Go strings.Join / List.intercalate with separator newline. -/
def joinLines (ls : List Str) : Str := List.intercalate ['\n'] ls

/-- Embedding of parseUnifiedHunkHeader (handlers/fs.go): strips the
leading "@@", trims whitespace, requires a leading '-', splits at the
first space, and parses the integer before the first comma of the
'-'-field.  Returns the orig_start value or the error
"invalid hunk header". -/
def parseUnifiedHunkHeader (header : Str) : Except String Int :=
  let trimmed := trimSpace (trimPref header ['@', '@'])
  if ¬ strHasPref trimmed ['-'] then .error "invalid hunk header"
  else
    let parts := splitN2 ' ' trimmed
    if parts.length < 2 then .error "invalid hunk header"
    else
      let origPart := trimPref (parts.headD []) ['-']
      let origFields := splitN2 ',' origPart
      match goAtoi (origFields.headD []) with
      | .error _ => .error "invalid hunk header"
      | .ok n => .ok n

/-- Outcome of applyUnifiedPatch: a result string, a Go error, or a Go
runtime panic (`crash`). -/
inductive PatchOut where
  | ok : String → PatchOut
  | err : String → PatchOut
  | crash : PatchOut
deriving DecidableEq


/-- Mode of the applyUnifiedPatch pass: before the first hunk header
(lines are skipped) or inside a hunk body (lines are patch operations).
The Go function is a nested loop over the patch lines; since both the
outer scan and the inner body loop advance through the same line slice
left to right, the pair of loops is embedded as one structural pass with
this mode flag. -/
inductive PMode where
  | scan : PMode
  | body : PMode
deriving DecidableEq

/-- Embedding of applyUnifiedPatch (handlers/fs.go), one patch line per
step.  A hunk header (line starting "@@") is parsed; cursor_target is
max(orig_start-1, 0); a target beyond the original's line count is
"patch out of range"; the original lines between the cursor and the
target are copied to the output (the Go slice lines[index:origStart]
panics when index > origStart, the `crash` case).  In body mode, context
lines must match the original at the cursor and are emitted, deletions
must match and are dropped, additions are emitted, lines starting with a
backslash are skipped, an empty line is allowed only as the final patch
line, and any other operation character is an error.  At the end of the
patch the rest of the original is appended, and a patch with no hunks is
an error. -/
def goStep (olines : List Str) : List Str → PMode → Nat → List Str → Nat → PatchOut
  | [], _, index, out, applied =>
    if applied = 0 then .err "patch contains no hunks"
    else .ok ⟨joinLines (out ++ olines.drop index)⟩
  | l :: rest, mode, index, out, applied =>
    if strHasPref l ['@', '@'] then
      match parseUnifiedHunkHeader l with
      | .error e => .err e
      | .ok n =>
        let target : Nat := (n - 1).toNat
        if olines.length < target then .err "patch out of range"
        else if index ≤ target then
          goStep olines rest .body target
            (out ++ (olines.drop index).take (target - index)) (applied + 1)
        else .crash
    else
      match mode with
      | .scan => goStep olines rest .scan index out applied
      | .body =>
        match l with
        | [] =>
          if rest = [] then goStep olines rest .body index out applied
          else .err "invalid patch line"
        | op :: text =>
          if op = '\\' then goStep olines rest .body index out applied
          else if op = ' ' then
            if index < olines.length ∧ olines.getD index [] = text then
              goStep olines rest .body (index + 1) (out ++ [text]) applied
            else .err "patch context mismatch"
          else if op = '-' then
            if index < olines.length ∧ olines.getD index [] = text then
              goStep olines rest .body (index + 1) out applied
            else .err "patch delete mismatch"
          else if op = '+' then goStep olines rest .body index (out ++ [text]) applied
          else .err "invalid patch operation"

/-- Embedding of applyUnifiedPatch (handlers/fs.go): split the original
and the patch on newlines and run the line pass. -/
def applyUnifiedPatch (original patch : String) : PatchOut :=
  goStep (splitOnChar '\n' original.data) (splitOnChar '\n' patch.data) .scan 0 [] 0

/-- The body of a hunk: the patch lines before the next "@@" header. -/
def hunkBody (pl : List Str) : List Str :=
  pl.takeWhile (fun l => !(strHasPref l ['@', '@']))

/-- Spec model, step 1 of the unified-diff apply algorithm in spec §4.5:
tokenize the patch and scan for hunk header lines; the patch is a
sequence of hunks, each a header line starting "@@" together with the
body lines up to the next header.  Lines before the first header are
skipped. -/
def parseHunks : List Str → List (Str × List Str)
  | [] => []
  | l :: rest =>
    if strHasPref l ['@', '@'] then (l, hunkBody rest) :: parseHunks rest
    else parseHunks rest

/-- Outcome of applying one hunk body per spec §4.5 step 3. -/
inductive BodyRes where
  | fail : String → BodyRes
  | done : Nat → List Str → BodyRes
deriving DecidableEq

/-- Spec model, step 3 of the unified-diff apply algorithm in spec §4.5:
process each body line; an empty line is end-of-hunk if it is the last
line of the patch (`isLast` says the hunk is the final one) and an error
otherwise; a leading backslash is a no-newline marker and is skipped; a
context line must equal the original at the cursor and is emitted; a
deletion must match and advances the cursor without emitting; an
addition is emitted; anything else is an invalid patch operation. -/
def specBody (olines : List Str) (isLast : Bool) : List Str → Nat → List Str → BodyRes
  | [], cursor, out => .done cursor out
  | l :: rest, cursor, out =>
    match l with
    | [] =>
      if rest = [] ∧ isLast = true then .done cursor out
      else .fail "invalid patch line"
    | op :: text =>
      if op = '\\' then specBody olines isLast rest cursor out
      else if op = ' ' then
        if cursor < olines.length ∧ olines.getD cursor [] = text then
          specBody olines isLast rest (cursor + 1) (out ++ [text])
        else .fail "patch context mismatch"
      else if op = '-' then
        if cursor < olines.length ∧ olines.getD cursor [] = text then
          specBody olines isLast rest (cursor + 1) out
        else .fail "patch delete mismatch"
      else if op = '+' then specBody olines isLast rest cursor (out ++ [text])
      else .fail "invalid patch operation"

/-- Spec model, steps 2 to 4 of the unified-diff apply algorithm in spec
§4.5: for each hunk interpret orig_start as 1-indexed, take
cursor_target = max(orig_start-1, 0), fail with "patch out of range"
when the target exceeds the original line count, copy the original lines
from the cursor to the target unchanged, and apply the body.  The spec's
copy O[cursor..cursor_target] is meaningless when cursor exceeds the
target (out-of-order hunks); that case is `crash`, matching the panic of
the Go slice expression.  After the last hunk the rest of the original
is appended. -/
def specApplyHunks (olines : List Str) : List (Str × List Str) → Nat → List Str → PatchOut
  | [], cursor, out => .ok ⟨joinLines (out ++ olines.drop cursor)⟩
  | (hdr, body) :: hs, cursor, out =>
    match parseUnifiedHunkHeader hdr with
    | .error e => .err e
    | .ok n =>
      let target : Nat := (n - 1).toNat
      if olines.length < target then .err "patch out of range"
      else if cursor ≤ target then
        match specBody olines hs.isEmpty body target
            (out ++ (olines.drop cursor).take (target - cursor)) with
        | .fail e => .err e
        | .done c2 o2 => specApplyHunks olines hs c2 o2
      else .crash

/-- Spec model of the full unified-diff apply algorithm of spec §4.5:
parse the hunks, fail with "patch contains no hunks" when there are
none, and otherwise apply them in order starting from cursor 0. -/
def applyUnifiedPatchSpec (original patch : String) : PatchOut :=
  let olines := splitOnChar '\n' original.data
  match parseHunks (splitOnChar '\n' patch.data) with
  | [] => .err "patch contains no hunks"
  | h :: hs => specApplyHunks olines (h :: hs) 0 []

/-- Join path components with '/'. -/
def joinComps (cs : List Str) : Str := List.intercalate ['/'] cs

/-- One step of the component form of Go path.Clean: skip empty and "."
components; ".." pops the last stacked component, except that at the
root it is dropped and in an unrooted path it accumulates; other
components are pushed.  The stack is kept reversed. -/
def cleanStep (rooted : Bool) (acc : List Str) (c : Str) : List Str :=
  if c = [] ∨ c = ['.'] then acc
  else if c = ['.', '.'] then
    match acc with
    | [] => if rooted then [] else [['.', '.']]
    | top :: rest => if top = ['.', '.'] then ['.', '.'] :: top :: rest else rest
  else c :: acc

/-- Embedding of Go path.Clean (path/path.go) in its equivalent
component form: split on '/', process the components with `cleanStep`,
and rejoin; an empty result is "." for unrooted paths and "/" for rooted
ones, and the empty input is ".". -/
def pathClean (p : Str) : Str :=
  if p = [] then ['.']
  else
    let rooted := strHasPref p ['/']
    let stack := ((splitOnChar '/' p).foldl (cleanStep rooted) []).reverse
    if rooted then
      if stack = [] then ['/'] else '/' :: joinComps stack
    else
      if stack = [] then ['.'] else joinComps stack

/-- Go path.IsAbs. -/
def isAbs (p : Str) : Bool := strHasPref p ['/']

/-- Embedding of Go path.Join for two elements: the first non-empty
element starts the '/'-join, which is then cleaned. -/
def goPathJoin (a b : Str) : Str :=
  if a ≠ [] then pathClean (a ++ '/' :: b)
  else if b ≠ [] then pathClean b
  else []

/-- Embedding of pathWithin (handlers/fs.go): target is within base when
base is "/" and target is absolute, or target equals base, or target
extends base with a '/' at the boundary. -/
def pathWithin (target base : Str) : Bool :=
  if base = ['/'] then strHasPref target ['/']
  else if target = base then true
  else if strHasPref target base then
    decide (base.length < target.length) && (target.getD base.length ' ' == '/')
  else false

/-- Embedding of resolveContainerPath (handlers/fs.go): the cleaned data
mount must be absolute; an empty request resolves to the mount; a
cleaned absolute request must be within the mount or the call fails with
"path outside data mount"; a relative request is path.Join-ed under the
mount. -/
def resolveContainerPath (dataMount requestPath : String) : Except String String :=
  let mountPath := pathClean dataMount.data
  if mountPath = ['.'] ∨ ¬ strHasPref mountPath ['/'] then
    .error "data mount must be absolute"
  else if requestPath = "" then .ok ⟨mountPath⟩
  else
    let reqClean := pathClean requestPath.data
    if isAbs reqClean then
      if ¬ pathWithin reqClean mountPath then .error "path outside data mount"
      else .ok ⟨reqClean⟩
    else .ok ⟨goPathJoin mountPath reqClean⟩

/-- A root directory with components appended below it. -/
def joinUnder (root : Str) (rel : List Str) : Str :=
  rel.foldl (fun acc c => acc ++ '/' :: c) root

/-- Result of walking components up to the first symlink: either the
final resolved component list or a pending symlink expansion (target,
remaining components, components resolved so far). -/
inductive SJStep where
  | done : List Str → SJStep
  | link : Str → List Str → List Str → SJStep

/-- Modelled from the spec: resolveHostPath delegates to
securejoin.SecureJoin (github.com/cyphar/filepath-securejoin, a
dependency whose source is not under src/).  Spec §4.5: "securely join
so the result is guaranteed to remain under mount_dir even in the
presence of symlinks".  The walk processes the path component by
component against a symlink oracle (none = not a symlink or
non-existent): "" and "." are skipped, ".." removes the last resolved
component and never ascends past the root, and other components are
resolved below the root, stopping at the first symlink. -/
def sjWalk (readlink : Str → Option Str) (root : Str) :
    List Str → List Str → SJStep
  | rel, [] => .done rel
  | rel, p :: rest =>
    if p = [] ∨ p = ['.'] then sjWalk readlink root rel rest
    else if p = ['.', '.'] then sjWalk readlink root rel.dropLast rest
    else
      match readlink (joinUnder root (rel ++ [p])) with
      | none => sjWalk readlink root (rel ++ [p]) rest
      | some dest => .link dest rest rel

/-- The symlink budget loop of SecureJoin: a relative symlink target is
prepended to the remaining components, an absolute target restarts from
the root, and resolution fails once the link budget is exhausted. -/
def sjLoop (readlink : Str → Option Str) (root : Str) :
    Nat → List Str → List Str → Option (List Str)
  | 0, rel, todo =>
    match sjWalk readlink root rel todo with
    | .done r => some r
    | .link _ _ _ => none
  | m + 1, rel, todo =>
    match sjWalk readlink root rel todo with
    | .done r => some r
    | .link dest rest rel2 =>
      if isAbs dest then sjLoop readlink root m [] (splitOnChar '/' dest ++ rest)
      else sjLoop readlink root m rel2 (splitOnChar '/' dest ++ rest)

/-- SecureJoin with the 255-link budget of filepath-securejoin. -/
def secureJoin (readlink : Str → Option Str) (root unsafePath : Str) : Option Str :=
  (sjLoop readlink root 255 [] (splitOnChar '/' unsafePath)).map (joinUnder root)

/-- Embedding of resolveHostPath (handlers/fs.go): trim one leading '/'
from the container path and SecureJoin it under the mount directory. -/
def resolveHostPath (readlink : Str → Option Str) (mountDir containerPath : String) :
    Option String :=
  (secureJoin readlink mountDir.data (trimPref containerPath.data ['/'])).map
    (fun r => (⟨r⟩ : String))

/-- The character set of identity.ValidateUserID
(internal/identity): [A-Za-z0-9_-]. -/
def isUserIDChar (c : Char) : Bool :=
  c = '-' ∨ c = '_' ∨ ('a' ≤ c ∧ c ≤ 'z') ∨ ('A' ≤ c ∧ c ≤ 'Z') ∨
  ('0' ≤ c ∧ c ≤ '9')

/-- Embedding of identity.ValidateUserID (internal/identity): the id
must be non-empty and every rune in [A-Za-z0-9_-]; the errors wrap
ErrInvalidArgument ("invalid argument"), surfaced by the handlers as
HTTP 400. -/
def validateUserID (s : String) : Except String Unit :=
  if s = "" then .error "invalid argument: user id required"
  else if s.data.all isUserIDChar then .ok ()
  else .error "invalid argument: invalid user id"

/-- Host files visible to the FS handlers: content by host path. -/
abbrev Files := String → Option String

/-- HTTP outcome of a handler. -/
inductive HandlerResult where
  | noContent : HandlerResult
  | okBody : String → HandlerResult
  | httpError : Nat → String → HandlerResult
  | panicked : HandlerResult

/-- Embedding of FSHandler.ApplyPatch (handlers/fs.go) over an abstract
host file map: validate the user id (400 before anything else), require
path and patch, resolve the container path (400 on failure), securely
resolve the host path under the mount directory (400 on failure), read
the file (404 when absent), apply the patch in memory (400 with the
patch error and nothing written), and only on success write the result
back.  The snapshot mount of the user's container is abstracted by the
mount directory plus the symlink oracle; the mode and mtime bookkeeping
of writeFileAtomic is not modelled. -/
def fsApplyPatch (readlink : Str → Option Str) (dataMount mountDir : String)
    (files : Files) (userID path patch : String) : HandlerResult × Files :=
  match validateUserID userID with
  | .error e => (.httpError 400 e, files)
  | .ok _ =>
    if path = "" ∨ patch = "" then
      (.httpError 400 "path and patch are required", files)
    else
      match resolveContainerPath dataMount path with
      | .error e => (.httpError 400 e, files)
      | .ok containerPath =>
        match resolveHostPath readlink mountDir containerPath with
        | none => (.httpError 400 "secure join failed", files)
        | some hostPath =>
          match files hostPath with
          | none => (.httpError 404 "file not found", files)
          | some orig =>
            match applyUnifiedPatch orig patch with
            | .err e => (.httpError 400 e, files)
            | .crash => (.panicked, files)
            | .ok updated =>
              (.noContent, fun p => if p = hostPath then some updated else files p)

/-- Embedding of FSHandler.Read (handlers/fs.go) over the abstract host
file map: validate the user id, resolve the container and host paths,
and return the file content (the base64 transport encoding is omitted;
directories are not modelled, so a present path is a regular file). -/
def fsRead (readlink : Str → Option Str) (dataMount mountDir : String)
    (files : Files) (userID path : String) : HandlerResult :=
  match validateUserID userID with
  | .error e => .httpError 400 e
  | .ok _ =>
    match resolveContainerPath dataMount path with
    | .error e => .httpError 400 e
    | .ok containerPath =>
      match resolveHostPath readlink mountDir containerPath with
      | none => .httpError 400 "secure join failed"
      | some hostPath =>
        match files hostPath with
        | none => .httpError 404 "file not found"
        | some content => .okBody content

/-- Embedding of the version handling of FSHandler.Diff
(handlers/fs.go): an empty version parameter is 400
"version is required"; a version string that strconv.Atoi rejects, or
that parses to a value at most 0, is 400 "invalid version"; otherwise
the snapshot id for that version is looked up through
Manager.VersionSnapshotID and a missing catalogue entry is 404
"version not found".  The catalogue lookup for the user's container is
abstracted as a function from version to optional snapshot id. -/
def fsDiffVersionGate (lookup : Int → Option String) (versionStr : String) :
    Except (Nat × String) (Int × String) :=
  if versionStr = "" then .error (400, "version is required")
  else
    match goAtoi versionStr.data with
    | .error _ => .error (400, "invalid version")
    | .ok v =>
      if v ≤ 0 then .error (400, "invalid version")
      else
        match lookup v with
        | none => .error (404, "version not found")
        | some sid => .ok (v, sid)

/-- A row of the container_versions table
(db/migrations/0001_init.up.sql); the schema declares
UNIQUE (container_id, version). -/
structure VersionRow where
  containerID : String
  version : Nat
  snapshotID : String
deriving DecidableEq

/-- Embedding of the NextVersion query (db/queries):
SELECT COALESCE(MAX(version), 0) + 1 FROM container_versions
WHERE container_id = $1. -/
def nextVersion (db : List VersionRow) (c : String) : Nat :=
  ((db.filter (fun r => r.containerID = c)).map (fun r => r.version)).foldr max 0 + 1

/-- Embedding of the InsertVersion query (db/queries) under the schema's
UNIQUE (container_id, version) constraint: inserting a duplicate pair
fails. -/
def insertVersion (db : List VersionRow) (c : String) (v : Nat) (sid : String) :
    Except String (List VersionRow) :=
  if db.any (fun r => r.containerID = c ∧ r.version = v) then
    .error "unique violation"
  else .ok (db ++ [⟨c, v, sid⟩])

/-- Embedding of the ListVersionsByContainerID query (db/queries): the
container's versions ORDER BY version ASC. -/
def listVersions (db : List VersionRow) (c : String) : List Nat :=
  ((db.filter (fun r => r.containerID = c)).map (fun r => r.version)).insertionSort (· ≤ ·)

/-- Modelled from the spec: Manager.CreateVersion (internal/mcp, not
under src/) — spec §4.3: "in one transaction: compute v = next_version,
... insert a snapshot row, insert a version row".  Only the catalogue
transaction is modelled, with NextVersion and InsertVersion embedded
from the SQL under src/; the runtime snapshot commit does not affect
version numbering. -/
def createVersion (db : List VersionRow) (c : String) (sid : String) :
    Except String (List VersionRow) :=
  insertVersion db c (nextVersion db c) sid

/-- N successive CreateVersion calls for container c with snapshot ids
indexed by call position. -/
def createVersionsN (c : String) (sid : Nat → String) :
    Nat → List VersionRow → Except String (List VersionRow)
  | 0, db => .ok db
  | n + 1, db =>
    match createVersion db c (sid n) with
    | .error e => .error e
    | .ok db2 => createVersionsN c sid n db2

/-- A matching block of difflib's SequenceMatcher: a[a..a+size) equals
b[b..b+size).  Modelled from go-difflib v1.0.0
(github.com/pmezard/go-difflib), the library behind unifiedDiff
(handlers/fs.go); its source is a dependency not under src/. -/
structure DMatch where
  a : Nat
  b : Nat
  size : Nat
deriving DecidableEq

/-- An opcode of difflib: tag 'r'eplace, 'd'elete, 'i'nsert or 'e'qual
over a[i1..i2) and b[j1..j2).  Modelled from go-difflib v1.0.0. -/
structure DOpCode where
  tag : Char
  i1 : Nat
  i2 : Nat
  j1 : Nat
  j2 : Nat
deriving DecidableEq

/-- difflib's b2j map: the ascending indices of b holding the given
line.  Junk handling is omitted: go-difflib's autojunk only activates
for sequences of 200 lines or more and no explicit junk function is
passed by unifiedDiff. -/
def b2jList (b : List Str) (s : Str) : List Nat :=
  (List.range b.length).filter (fun j => b.getD j [] = s)

/-- Lookup in the j2len map of findLongestMatch (absent keys are 0). -/
def j2get (m : List (Nat × Nat)) (k : Nat) : Nat :=
  match m.find? (fun pr => pr.1 = k) with
  | some pr => pr.2
  | none => 0

/-- Inner loop of findLongestMatch over the b-indices matching a[i]:
extends chain lengths (j2len) and tracks the best block.  Modelled from
go-difflib v1.0.0. -/
def flmRow (j2len : List (Nat × Nat)) (i : Nat) :
    List Nat → List (Nat × Nat) → DMatch → (List (Nat × Nat) × DMatch)
  | [], newj2len, best => (newj2len, best)
  | j :: js, newj2len, best =>
    let k := (if j = 0 then 0 else j2get j2len (j - 1)) + 1
    let best2 := if best.size < k then DMatch.mk (i + 1 - k) (j + 1 - k) k else best
    flmRow j2len i js ((j, k) :: newj2len) best2

/-- Outer loop of findLongestMatch over i in [alo, ahi); Go's
"continue if j < blo, break if j >= bhi" over the ascending b2j list is
the filter/takeWhile below.  Modelled from go-difflib v1.0.0. -/
def flmRows (a b : List Str) (blo bhi : Nat) :
    List Nat → List (Nat × Nat) → DMatch → DMatch
  | [], _, best => best
  | i :: is, j2len, best =>
    let js := ((b2jList b (a.getD i [])).filter (fun j => blo ≤ j)).takeWhile
      (fun j => j < bhi)
    let rowRes := flmRow j2len i js [] best
    flmRows a b blo bhi is rowRes.1 rowRes.2

/-- Backward extension of the best block while the preceding elements
match.  The fuel equals besti at the call site, which bounds the number
of steps exactly, so the fuel never runs out before the loop condition
fails.  Modelled from go-difflib v1.0.0 (junk-free form). -/
def extendBack (a b : List Str) (alo blo : Nat) :
    Nat → DMatch → DMatch
  | 0, best => best
  | fuel + 1, best =>
    if alo < best.a ∧ blo < best.b ∧
        a.getD (best.a - 1) [] = b.getD (best.b - 1) [] then
      extendBack a b alo blo fuel ⟨best.a - 1, best.b - 1, best.size + 1⟩
    else best

/-- Forward extension of the best block while the following elements
match; the fuel (ahi at the call site) bounds the steps exactly.
Modelled from go-difflib v1.0.0 (junk-free form). -/
def extendFwd (a b : List Str) (ahi bhi : Nat) :
    Nat → DMatch → DMatch
  | 0, best => best
  | fuel + 1, best =>
    if best.a + best.size < ahi ∧ best.b + best.size < bhi ∧
        a.getD (best.a + best.size) [] = b.getD (best.b + best.size) [] then
      extendFwd a b ahi bhi fuel ⟨best.a, best.b, best.size + 1⟩
    else best

/-- findLongestMatch of difflib's SequenceMatcher over a[alo..ahi) and
b[blo..bhi).  Modelled from go-difflib v1.0.0. -/
def findLongestMatch (a b : List Str) (alo ahi blo bhi : Nat) : DMatch :=
  let best := flmRows a b blo bhi (List.range' alo (ahi - alo)) [] ⟨alo, blo, 0⟩
  let best2 := extendBack a b alo blo best.a best
  extendFwd a b ahi bhi ahi best2

/-- The recursive divide-and-conquer of GetMatchingBlocks: find the
longest match, recurse on both sides, collect in order.  The fuel
(a.length + b.length + 1 at the call site) dominates the recursion
depth; each recursive call strictly shrinks a non-empty range.
Modelled from go-difflib v1.0.0. -/
def matchBlocksAux (a b : List Str) :
    Nat → Nat → Nat → Nat → Nat → List DMatch → List DMatch
  | 0, _, _, _, _, acc => acc
  | fuel + 1, alo, ahi, blo, bhi, acc =>
    let m := findLongestMatch a b alo ahi blo bhi
    if m.size = 0 then acc
    else
      let acc1 :=
        if alo < m.a ∧ blo < m.b then matchBlocksAux a b fuel alo m.a blo m.b acc
        else acc
      let acc2 := acc1 ++ [m]
      if m.a + m.size < ahi ∧ m.b + m.size < bhi then
        matchBlocksAux a b fuel (m.a + m.size) ahi (m.b + m.size) bhi acc2
      else acc2

/-- The adjacent-block collapsing pass of GetMatchingBlocks.  Modelled
from go-difflib v1.0.0. -/
def collapseAdjacent : List DMatch → Nat → Nat → Nat → List DMatch
  | [], i1, j1, k1 => if 0 < k1 then [⟨i1, j1, k1⟩] else []
  | m :: ms, i1, j1, k1 =>
    if i1 + k1 = m.a ∧ j1 + k1 = m.b then collapseAdjacent ms i1 j1 (k1 + m.size)
    else if 0 < k1 then ⟨i1, j1, k1⟩ :: collapseAdjacent ms m.a m.b m.size
    else collapseAdjacent ms m.a m.b m.size

/-- GetMatchingBlocks of difflib: ordered maximal matches ending with
the (|a|, |b|, 0) sentinel.  Modelled from go-difflib v1.0.0. -/
def getMatchingBlocks (a b : List Str) : List DMatch :=
  let matched := matchBlocksAux a b (a.length + b.length + 1) 0 a.length 0 b.length []
  collapseAdjacent matched 0 0 0 ++ [⟨a.length, b.length, 0⟩]

/-- GetOpCodes of difflib: turn the matching blocks into replace,
delete, insert and equal opcodes.  Modelled from go-difflib v1.0.0. -/
def getOpCodesAux : List DMatch → Nat → Nat → List DOpCode
  | [], _, _ => []
  | m :: ms, i, j =>
    let tag : Char :=
      if i < m.a ∧ j < m.b then 'r'
      else if i < m.a then 'd'
      else if j < m.b then 'i'
      else Char.ofNat 0
    let pre : List DOpCode :=
      if i < m.a ∨ j < m.b then [⟨tag, i, m.a, j, m.b⟩] else []
    let eqc : List DOpCode :=
      if 0 < m.size then [⟨'e', m.a, m.a + m.size, m.b, m.b + m.size⟩] else []
    pre ++ eqc ++ getOpCodesAux ms (m.a + m.size) (m.b + m.size)

/-- The group-splitting fold of GetGroupedOpCodes: a large equal range
ends the current group (truncated to n context lines) and starts the
next one; a final group that is a single equal opcode is dropped.
Modelled from go-difflib v1.0.0. -/
def groupSplit (n : Nat) : List DOpCode → List DOpCode → List (List DOpCode)
  | [], group =>
    if group ≠ [] ∧ ¬(group.length = 1 ∧ (group.headD ⟨'e', 0, 0, 0, 0⟩).tag = 'e')
    then [group] else []
  | c :: cs, group =>
    if c.tag = 'e' ∧ n + n < c.i2 - c.i1 then
      (group ++ [⟨c.tag, c.i1, min c.i2 (c.i1 + n), c.j1, min c.j2 (c.j1 + n)⟩]) ::
        groupSplit n cs [⟨c.tag, max c.i1 (c.i2 - n), c.i2, max c.j1 (c.j2 - n), c.j2⟩]
    else groupSplit n cs (group ++ [c])

/-- GetGroupedOpCodes of difflib with n context lines: empty opcode
lists become a dummy equal opcode, leading and trailing equal opcodes
are trimmed to n lines, and the result is split into groups.  Modelled
from go-difflib v1.0.0. -/
def groupOpCodes (n : Nat) (codes0 : List DOpCode) : List (List DOpCode) :=
  let codes1 := if codes0 = [] then [⟨'e', 0, 1, 0, 1⟩] else codes0
  let codes2 :=
    match codes1 with
    | [] => []
    | c :: rest =>
      if c.tag = 'e' then
        DOpCode.mk c.tag (max c.i1 (c.i2 - n)) c.i2 (max c.j1 (c.j2 - n)) c.j2 :: rest
      else c :: rest
  let codes3 :=
    match codes2.getLast? with
    | none => codes2
    | some c =>
      if c.tag = 'e' then
        codes2.dropLast ++ [⟨c.tag, c.i1, min c.i2 (c.i1 + n), c.j1, min c.j2 (c.j1 + n)⟩]
      else codes2
  groupSplit n codes3 []

/-- Decimal digits of a natural number. -/
def natDigits (n : Nat) : Str := Nat.toDigits 10 n

/-- formatRangeUnified of go-difflib: 1-indexed start, "start" alone for
length 1, and "start,length" otherwise (empty ranges begin one line
earlier). -/
def formatRangeUnified (start stop : Nat) : Str :=
  let beginning := start + 1
  let length := stop - start
  if length = 1 then natDigits beginning
  else
    natDigits (if length = 0 then beginning - 1 else beginning) ++
      ',' :: natDigits length

/-- The body lines one opcode contributes to a unified-diff hunk.  As in
go-difflib's WriteUnifiedDiff, each source line is written as
" "/"-"/"+" plus the line WITHOUT any appended end-of-line: the library
expects its inputs to carry their own trailing newlines. -/
def writeGroupLine (a b : List Str) (c : DOpCode) : Str :=
  if c.tag = 'e' then
    ((a.drop c.i1).take (c.i2 - c.i1)).foldl (fun acc l => acc ++ ' ' :: l) []
  else
    (if c.tag = 'r' ∨ c.tag = 'd' then
       ((a.drop c.i1).take (c.i2 - c.i1)).foldl (fun acc l => acc ++ '-' :: l) []
     else []) ++
    (if c.tag = 'r' ∨ c.tag = 'i' then
       ((b.drop c.j1).take (c.j2 - c.j1)).foldl (fun acc l => acc ++ '+' :: l) []
     else [])

/-- One hunk of WriteUnifiedDiff: the "@@ -r1 +r2 @@" header line (with
the default Eol "\n") followed by the body lines of the group. -/
def writeGroup (a b : List Str) (g : List DOpCode) : Str :=
  match g with
  | [] => []
  | first :: _ =>
    let last := g.getLastD first
    ['@', '@', ' ', '-'] ++ formatRangeUnified first.i1 last.i2 ++ [' ', '+'] ++
      formatRangeUnified first.j1 last.j2 ++ [' ', '@', '@', '\n'] ++
      g.foldl (fun acc c => acc ++ writeGroupLine a b c) []

/-- WriteUnifiedDiff / GetUnifiedDiffString of go-difflib v1.0.0 for the
parameters used by unifiedDiff (handlers/fs.go): "--- fromFile" and
"+++ toFile" header lines (no dates) before the first group, then the
grouped hunks; no groups means an empty string. -/
def writeUnifiedDiff (fromFile toFile : Str) (a b : List Str) : Str :=
  let groups := groupOpCodes 3 (getOpCodesAux (getMatchingBlocks a b) 0 0)
  if groups = [] then []
  else
    ['-', '-', '-', ' '] ++ fromFile ++ '\n' ::
      (['+', '+', '+', ' '] ++ toFile ++ '\n' ::
        groups.foldl (fun acc g => acc ++ writeGroup a b g) [])

/-- Embedding of unifiedDiff (handlers/fs.go): GetUnifiedDiffString on
the newline-split contents with FromFile "a"+path, ToFile "b"+path and
three lines of context.  The splits produce lines WITHOUT trailing
newlines, although go-difflib expects newline-terminated lines. -/
def unifiedDiff (containerPath oldContent newContent : String) : String :=
  ⟨writeUnifiedDiff ('a' :: containerPath.data) ('b' :: containerPath.data)
    (splitOnChar '\n' oldContent.data) (splitOnChar '\n' newContent.data)⟩

/-- Strip an expected literal prefix. -/
def expectPref (pre s : Str) : Option Str :=
  if pre.isPrefixOf s then some (s.drop pre.length) else none

/-- Take a non-empty run of decimal digits. -/
def takeDigits1 (s : Str) : Option (Str × Str) :=
  let ds := s.takeWhile isDigitCh
  if ds = [] then none else some (ds, s.drop ds.length)

/-- Optionally consume ",count" with a non-empty digit count. -/
def optCount (s : Str) : Option Str :=
  match s with
  | ',' :: r =>
    match takeDigits1 r with
    | some pr => some pr.2
    | none => none
  | _ => some s

/-- The hunk-header shape of spec §4.5 step 1,
"@@ -orig_start[,orig_count] +new_start[,new_count] @@", as a strict
parser returning orig_start; a line that is not exactly of this shape
yields none. -/
def specHunkHeaderParse (h : Str) : Option Int :=
  match expectPref ['@', '@', ' ', '-'] h with
  | none => none
  | some r1 =>
    match takeDigits1 r1 with
    | none => none
    | some (ds, r2) =>
      match optCount r2 with
      | none => none
      | some r3 =>
        match expectPref [' ', '+'] r3 with
        | none => none
        | some r4 =>
          match takeDigits1 r4 with
          | none => none
          | some (_, r5) =>
            match optCount r5 with
            | none => none
            | some r6 =>
              if r6 = [' ', '@', '@'] then some (digitsVal ds) else none

/-- A non-empty patch-line list has a non-empty first hunk body or a
non-empty hunk list. -/
theorem hunkBody_or_parseHunks_ne (r : Str) (rs : List Str) :
    hunkBody (r :: rs) ≠ [] ∨ parseHunks (r :: rs) ≠ [] := by
  by_cases hr : strHasPref r ['@', '@']
  · right
    simp [parseHunks, hr]
  · left
    simp [hunkBody, List.takeWhile_cons, hr]

/-- The fused single pass of the Go implementation agrees with the
parse-then-apply spec model: in scan mode it computes the hunk list and
applies it, and in body mode, with at least one hunk already applied, it
finishes the current hunk body and then applies the remaining hunks. -/
theorem goStep_eq_spec (olines : List Str) (pl : List Str) :
    (∀ i o a, goStep olines pl .scan i o a =
      (match parseHunks pl with
       | [] =>
         if a = 0 then PatchOut.err "patch contains no hunks"
         else PatchOut.ok ⟨joinLines (o ++ olines.drop i)⟩
       | h :: hs => specApplyHunks olines (h :: hs) i o)) ∧
    (∀ i o a, 0 < a → goStep olines pl .body i o a =
      (match specBody olines (parseHunks pl).isEmpty (hunkBody pl) i o with
       | .fail e => PatchOut.err e
       | .done c2 o2 =>
         match parseHunks pl with
         | [] => PatchOut.ok ⟨joinLines (o2 ++ olines.drop c2)⟩
         | h :: hs => specApplyHunks olines (h :: hs) c2 o2)) := by
  induction pl with
  | nil =>
    constructor
    · intro i o a
      rfl
    · intro i o a ha
      have hz : ¬ a = 0 := Nat.pos_iff_ne_zero.mp ha
      simp [goStep, parseHunks, hunkBody, specBody, hz]
  | cons l rest ih =>
    by_cases hpre : strHasPref l ['@', '@']
    · have hh : ∀ (m : PMode) i o a, goStep olines (l :: rest) m i o a =
          specApplyHunks olines ((l, hunkBody rest) :: parseHunks rest) i o := by
        intro m i o a
        simp only [goStep, hpre, if_true, specApplyHunks]
        cases hp : parseUnifiedHunkHeader l with
        | error e => rfl
        | ok n =>
          simp only []
          by_cases hrange : olines.length < (n - 1).toNat
          · rw [if_pos hrange, if_pos hrange]
          · rw [if_neg hrange, if_neg hrange]
            by_cases hcur : i ≤ (n - 1).toNat
            · rw [if_pos hcur, if_pos hcur]
              rw [ih.2 _ _ (a + 1) (Nat.succ_pos a)]
              cases hsb : specBody olines (parseHunks rest).isEmpty (hunkBody rest)
                  ((n - 1).toNat)
                  (o ++ (olines.drop i).take ((n - 1).toNat - i)) with
              | fail e => rfl
              | done c2 o2 =>
                cases hps : parseHunks rest with
                | nil => simp [specApplyHunks]
                | cons h hs => rfl
            · rw [if_neg hcur, if_neg hcur]
      constructor
      · intro i o a
        rw [hh .scan]
        simp [parseHunks, hpre]
      · intro i o a ha
        rw [hh .body]
        have hb : hunkBody (l :: rest) = [] := by
          simp [hunkBody, List.takeWhile_cons, hpre]
        rw [hb]
        simp [specBody, parseHunks, hpre]
    · constructor
      · intro i o a
        have hl : goStep olines (l :: rest) .scan i o a = goStep olines rest .scan i o a := by
          simp [goStep, hpre]
        rw [hl, ih.1]
        have hp : parseHunks (l :: rest) = parseHunks rest := by
          simp [parseHunks, hpre]
        rw [hp]
      · intro i o a ha
        have hp : parseHunks (l :: rest) = parseHunks rest := by
          simp [parseHunks, hpre]
        have hb : hunkBody (l :: rest) = l :: hunkBody rest := by
          simp [hunkBody, List.takeWhile_cons, hpre]
        rw [hp, hb]
        cases l with
        | nil =>
          by_cases hrest : rest = []
          · subst hrest
            have hz : ¬ a = 0 := Nat.pos_iff_ne_zero.mp ha
            simp [goStep, hpre, specBody, parseHunks, hunkBody, hz]
          · have hlhs : goStep olines ([] :: rest) .body i o a = .err "invalid patch line" := by
              simp [goStep, hpre, hrest]
            rw [hlhs]
            obtain ⟨r, rs, hrr⟩ : ∃ r rs, rest = r :: rs := by
              cases rest with
              | nil => exact absurd rfl hrest
              | cons r rs => exact ⟨r, rs, rfl⟩
            have hcond : ¬ (hunkBody rest = [] ∧ parseHunks rest = []) := by
              rintro ⟨h1, h2⟩
              rw [hrr] at h1 h2
              rcases hunkBody_or_parseHunks_ne r rs with h3 | h3
              · exact h3 h1
              · exact h3 h2
            simp [specBody, hcond]
        | cons op text =>
          by_cases h1 : op = '\\'
          · subst h1
            have hlhs : goStep olines (('\\' :: text) :: rest) .body i o a =
                goStep olines rest .body i o a := by
              simp [goStep, hpre]
            rw [hlhs, ih.2 _ _ _ ha]
            simp [specBody]
          · by_cases h2 : op = ' '
            · subst h2
              by_cases hcond : i < olines.length ∧ olines.getD i [] = text
              · obtain ⟨hlt, hgd⟩ := hcond
                have hge : olines[i] = text := by
                  rw [← List.getD_eq_getElem olines [] hlt]
                  exact hgd
                have hlhs : goStep olines ((' ' :: text) :: rest) .body i o a =
                    goStep olines rest .body (i + 1) (o ++ [text]) a := by
                  simp [goStep, hpre, hlt, hgd, hge]
                rw [hlhs, ih.2 _ _ _ ha]
                simp [specBody, hlt, hgd, hge]
              · by_cases hlt : i < olines.length
                · have hne : ¬ olines.getD i [] = text := fun hx => hcond ⟨hlt, hx⟩
                  have hne2 : ¬ olines[i] = text := by
                    rw [← List.getD_eq_getElem olines [] hlt]
                    exact hne
                  have hlhs : goStep olines ((' ' :: text) :: rest) .body i o a =
                      .err "patch context mismatch" := by
                    simp [goStep, hpre, hlt, hne, hne2]
                  rw [hlhs]
                  simp [specBody, hlt, hne, hne2]
                · have hlhs : goStep olines ((' ' :: text) :: rest) .body i o a =
                      .err "patch context mismatch" := by
                    simp [goStep, hpre, hlt]
                  rw [hlhs]
                  simp [specBody, hlt]
            · by_cases h3 : op = '-'
              · subst h3
                by_cases hcond : i < olines.length ∧ olines.getD i [] = text
                · obtain ⟨hlt, hgd⟩ := hcond
                  have hge : olines[i] = text := by
                    rw [← List.getD_eq_getElem olines [] hlt]
                    exact hgd
                  have hlhs : goStep olines (('-' :: text) :: rest) .body i o a =
                      goStep olines rest .body (i + 1) o a := by
                    simp [goStep, hpre, hlt, hgd, hge]
                  rw [hlhs, ih.2 _ _ _ ha]
                  simp [specBody, hlt, hgd, hge]
                · by_cases hlt : i < olines.length
                  · have hne : ¬ olines.getD i [] = text := fun hx => hcond ⟨hlt, hx⟩
                    have hne2 : ¬ olines[i] = text := by
                      rw [← List.getD_eq_getElem olines [] hlt]
                      exact hne
                    have hlhs : goStep olines (('-' :: text) :: rest) .body i o a =
                        .err "patch delete mismatch" := by
                      simp [goStep, hpre, hlt, hne, hne2]
                    rw [hlhs]
                    simp [specBody, hlt, hne, hne2]
                  · have hlhs : goStep olines (('-' :: text) :: rest) .body i o a =
                        .err "patch delete mismatch" := by
                      simp [goStep, hpre, hlt]
                    rw [hlhs]
                    simp [specBody, hlt]
              · by_cases h4 : op = '+'
                · subst h4
                  have hlhs : goStep olines (('+' :: text) :: rest) .body i o a =
                      goStep olines rest .body i (o ++ [text]) a := by
                    simp [goStep, hpre]
                  rw [hlhs, ih.2 _ _ _ ha]
                  simp [specBody]
                · have hlhs : goStep olines ((op :: text) :: rest) .body i o a =
                      .err "invalid patch operation" := by
                    simp [goStep, hpre, h1, h2, h3, h4]
                  rw [hlhs]
                  simp [specBody, h1, h2, h3, h4]

/-- C1: The patch applier implements the spec's deterministic
unified-diff algorithm: for every original text O (split on newline) and
every patch P, the Go single pass (applyUnifiedPatch) agrees with the
spec's parse-then-apply algorithm (applyUnifiedPatchSpec): orig_start is
1-indexed with cursor_target = max(orig_start-1, 0); a target beyond |O|
is the error "patch out of range"; O[cursor..cursor_target] is copied
unchanged; context lines must match the original at the cursor and are
emitted advancing the cursor, deletions must match and advance without
emitting, additions are emitted without advancing; after all hunks the
remainder O[cursor..] is appended; and a patch without hunks is the
error "patch contains no hunks". -/
theorem applyUnifiedPatch_implements_spec (original patch : String) :
    applyUnifiedPatch original patch = applyUnifiedPatchSpec original patch := by
  unfold applyUnifiedPatch applyUnifiedPatchSpec
  rw [(goStep_eq_spec _ _).1]
  cases parseHunks (splitOnChar '\n' patch.data) with
  | nil => rfl
  | cons h hs => rfl

/-- C10: evaluation of the patch applier on a two-hunk patch whose second
hunk's cursor_target (0) is below the cursor already advanced by the
first hunk (2): the Go slice expression lines[index:origStart] has
index > origStart there and panics at runtime, modelled by the `crash`
outcome, so the applier is not total. -/
theorem applyUnifiedPatch_crashes_on_rewinding_hunks :
    applyUnifiedPatch "a\nb" "@@ -1,2 +1,2 @@\n a\n b\n@@ -1,1 +1,1 @@\n a"
      = .crash := by decide

/-- C2: the diff/patch round trip fails.  unifiedDiff feeds difflib
lines split without trailing newlines, so WriteUnifiedDiff concatenates
all body lines of a hunk into one patch line: diffing "one" against
"two" yields a hunk whose only body line is "-one+two", which the patch
applier rejects with "patch delete mismatch" instead of producing "two";
and diffing equal texts yields the empty patch, which the applier
rejects with "patch contains no hunks".  The spec's property 6 (and the
per-line diff shown in its scenario S5) is therefore violated by the
code. -/
theorem diff_patch_roundtrip_fails :
    unifiedDiff "/data/x" "one" "two"
      = "--- a/data/x\n+++ b/data/x\n@@ -1 +1 @@\n-one+two" ∧
    applyUnifiedPatch "one" (unifiedDiff "/data/x" "one" "two")
      = .err "patch delete mismatch" ∧
    applyUnifiedPatch "one" (unifiedDiff "/data/x" "one" "two") ≠ .ok "two" ∧
    unifiedDiff "/data/a.txt" "one\ntwo\nthree\n" "one\nTWO\nthree\n"
      = "--- a/data/a.txt\n+++ b/data/a.txt\n@@ -1,4 +1,4 @@\n one-two+TWO three " ∧
    unifiedDiff "/data/x" "a" "a" = "" ∧
    applyUnifiedPatch "a" (unifiedDiff "/data/x" "a" "a")
      = .err "patch contains no hunks" := by
  refine ⟨by decide, by decide, by decide, by decide, by decide, by decide⟩

/-- C3: ApplyPatch is atomic on mismatch: when the request passes
validation and path resolution, the file exists, and the in-memory patch
application fails with "patch context mismatch" or
"patch delete mismatch", the handler answers HTTP 400 with that message
and the host files are unchanged (no write happens before the patch has
been applied successfully in memory). -/
theorem fsApplyPatch_mismatch_atomic (readlink : Str → Option Str)
    (dataMount mountDir : String) (files : Files) (userID path patch : String)
    (containerPath hostPath orig e : String)
    (hu : validateUserID userID = .ok ())
    (hp : path ≠ "") (hq : patch ≠ "")
    (hcp : resolveContainerPath dataMount path = .ok containerPath)
    (hhp : resolveHostPath readlink mountDir containerPath = some hostPath)
    (hf : files hostPath = some orig)
    (he : applyUnifiedPatch orig patch = .err e)
    (hmm : e = "patch context mismatch" ∨ e = "patch delete mismatch") :
    fsApplyPatch readlink dataMount mountDir files userID path patch
      = (.httpError 400 e, files) := by
  unfold fsApplyPatch
  simp only [hu]
  rw [if_neg (by simp [hp, hq])]
  simp only [hcp, hhp, hf, he]

/-- Witness for C3 at the spec's scenario S4: a patch deleting "TWO"
from a file containing "one\ntwo\nthree\n" is answered with 400
"patch delete mismatch" and the file map is unchanged. -/
theorem fsApplyPatch_mismatch_atomic_witness :
    fsApplyPatch (fun _ => none) "/data" "/mnt"
      (fun p => if p = "/mnt/data/a.txt" then some "one\ntwo\nthree\n" else none)
      "alice" "/data/a.txt" "@@ -2,1 +2,1 @@\n-TWO\n+two\n"
      = (.httpError 400 "patch delete mismatch",
         fun p => if p = "/mnt/data/a.txt" then some "one\ntwo\nthree\n" else none) :=
  fsApplyPatch_mismatch_atomic (fun _ => none) "/data" "/mnt"
    (fun p => if p = "/mnt/data/a.txt" then some "one\ntwo\nthree\n" else none)
    "alice" "/data/a.txt" "@@ -2,1 +2,1 @@\n-TWO\n+two\n"
    "/data/a.txt" "/mnt/data/a.txt" "one\ntwo\nthree\n" "patch delete mismatch"
    rfl (by decide) (by decide) rfl rfl rfl (by decide) (Or.inr rfl)

/-- C4 counterexample: a Diff request with version "0" is answered with
HTTP 400 "invalid version" (InvalidArgument), not with 404 NotFound as
the claim states, even when the catalogue has version entries. -/
theorem fsDiff_version_zero_is_400 :
    fsDiffVersionGate (fun v => if v = 1 then some "s1" else none) "0"
      = .error (400, "invalid version") ∧
    fsDiffVersionGate (fun v => if v = 1 then some "s1" else none) "0"
      ≠ .error (404, "version not found") := by
  constructor
  · rfl
  · intro h
    cases h

/-- C4 amended: a Diff request whose version parses to a value at most 0
(in particular "0") fails with 400 "invalid version"; an unparseable
version also fails with 400 "invalid version"; only a positive version
with no catalogue entry for the user's container fails with 404
"version not found". -/
theorem fsDiff_version_gate_behaviour (lookup : Int → Option String)
    (s : String) (v : Int) :
    (s ≠ "" → goAtoi s.data = .ok v → v ≤ 0 →
      fsDiffVersionGate lookup s = .error (400, "invalid version")) ∧
    (s ≠ "" → goAtoi s.data = .error () →
      fsDiffVersionGate lookup s = .error (400, "invalid version")) ∧
    (s ≠ "" → goAtoi s.data = .ok v → 0 < v → lookup v = none →
      fsDiffVersionGate lookup s = .error (404, "version not found")) := by
  refine ⟨?_, ?_, ?_⟩
  · intro hs hv hle
    unfold fsDiffVersionGate
    rw [if_neg hs]
    simp only [hv, if_pos hle]
  · intro hs hv
    unfold fsDiffVersionGate
    rw [if_neg hs]
    simp only [hv]
  · intro hs hv hpos hnone
    unfold fsDiffVersionGate
    rw [if_neg hs]
    simp only [hv]
    rw [if_neg (by omega)]
    simp only [hnone]

/-- Witness for C4's amended claim: version "0" gives 400
"invalid version" and version "5" with an empty catalogue gives 404
"version not found". -/
theorem fsDiff_version_gate_behaviour_witness :
    fsDiffVersionGate (fun _ => none) "0" = .error (400, "invalid version") ∧
    fsDiffVersionGate (fun _ => none) "5" = .error (404, "version not found") :=
  ⟨(fsDiff_version_gate_behaviour (fun _ => none) "0" 0).1 (by decide) rfl (by decide),
   (fsDiff_version_gate_behaviour (fun _ => none) "5" 5).2.2 (by decide) rfl
     (by decide) rfl⟩

/-- The components the secure-join walk accumulates are plain names:
never empty, "." or "..".  The walk preserves this for both outcomes. -/
theorem sjWalk_good (readlink : Str → Option Str) (root : Str) :
    ∀ (todo rel : List Str),
      (∀ c ∈ rel, c ≠ [] ∧ c ≠ ['.'] ∧ c ≠ ['.', '.']) →
      (∀ r, sjWalk readlink root rel todo = .done r →
        ∀ c ∈ r, c ≠ [] ∧ c ≠ ['.'] ∧ c ≠ ['.', '.']) ∧
      (∀ dest rest rel2, sjWalk readlink root rel todo = .link dest rest rel2 →
        ∀ c ∈ rel2, c ≠ [] ∧ c ≠ ['.'] ∧ c ≠ ['.', '.']) := by
  intro todo
  induction todo with
  | nil =>
    intro rel hrel
    constructor
    · intro r hr
      simp only [sjWalk, SJStep.done.injEq] at hr
      subst hr
      exact hrel
    · intro dest rest rel2 hr
      exact SJStep.noConfusion hr
  | cons p rest ih =>
    intro rel hrel
    by_cases hskip : p = [] ∨ p = ['.']
    · have he : sjWalk readlink root rel (p :: rest)
          = sjWalk readlink root rel rest := by
        simp only [sjWalk, if_pos hskip]
      constructor
      · intro r hr
        rw [he] at hr
        exact (ih rel hrel).1 r hr
      · intro dest rest2 rel2 hr
        rw [he] at hr
        exact (ih rel hrel).2 dest rest2 rel2 hr
    · by_cases hdd : p = ['.', '.']
      · have he : sjWalk readlink root rel (p :: rest)
            = sjWalk readlink root rel.dropLast rest := by
          simp only [sjWalk, if_neg hskip, if_pos hdd]
        have hrel2 : ∀ c ∈ rel.dropLast, c ≠ [] ∧ c ≠ ['.'] ∧ c ≠ ['.', '.'] :=
          fun c hc => hrel c ((List.dropLast_sublist rel).subset hc)
        constructor
        · intro r hr
          rw [he] at hr
          exact (ih _ hrel2).1 r hr
        · intro dest rest2 rel2 hr
          rw [he] at hr
          exact (ih _ hrel2).2 dest rest2 rel2 hr
      · have hgood : p ≠ [] ∧ p ≠ ['.'] ∧ p ≠ ['.', '.'] := by
          push_neg at hskip
          exact ⟨hskip.1, hskip.2, hdd⟩
        have hrel2 : ∀ c ∈ rel ++ [p], c ≠ [] ∧ c ≠ ['.'] ∧ c ≠ ['.', '.'] := by
          intro c hc
          rcases List.mem_append.mp hc with h | h
          · exact hrel c h
          · rcases List.mem_singleton.mp h with rfl
            exact hgood
        cases hrl : readlink (joinUnder root (rel ++ [p])) with
        | none =>
          have he : sjWalk readlink root rel (p :: rest)
              = sjWalk readlink root (rel ++ [p]) rest := by
            simp only [sjWalk, if_neg hskip, if_neg hdd, hrl]
          constructor
          · intro r hr
            rw [he] at hr
            exact (ih _ hrel2).1 r hr
          · intro dest rest2 rel2 hr
            rw [he] at hr
            exact (ih _ hrel2).2 dest rest2 rel2 hr
        | some dest0 =>
          have he : sjWalk readlink root rel (p :: rest)
              = .link dest0 rest rel := by
            simp only [sjWalk, if_neg hskip, if_neg hdd, hrl]
          constructor
          · intro r hr
            rw [he] at hr
            exact SJStep.noConfusion hr
          · intro dest rest2 rel2 hr
            rw [he] at hr
            injection hr with h1 h2 h3
            subst h3
            exact hrel

/-- The budget loop of the secure join only returns component lists of
plain names. -/
theorem sjLoop_good (readlink : Str → Option Str) (root : Str) :
    ∀ (n : Nat) (todo rel : List Str),
      (∀ c ∈ rel, c ≠ [] ∧ c ≠ ['.'] ∧ c ≠ ['.', '.']) →
      ∀ r, sjLoop readlink root n rel todo = some r →
        ∀ c ∈ r, c ≠ [] ∧ c ≠ ['.'] ∧ c ≠ ['.', '.'] := by
  intro n
  induction n with
  | zero =>
    intro todo rel hrel r hr
    cases hw : sjWalk readlink root rel todo with
    | done r2 =>
      simp only [sjLoop, hw, Option.some.injEq] at hr
      subst hr
      exact (sjWalk_good readlink root todo rel hrel).1 _ hw
    | link dest rest rel2 =>
      simp only [sjLoop, hw] at hr
      exact Option.noConfusion hr
  | succ m ihm =>
    intro todo rel hrel r hr
    cases hw : sjWalk readlink root rel todo with
    | done r2 =>
      simp only [sjLoop, hw, Option.some.injEq] at hr
      subst hr
      exact (sjWalk_good readlink root todo rel hrel).1 _ hw
    | link dest rest rel2 =>
      simp only [sjLoop, hw] at hr
      by_cases habs : isAbs dest = true
      · rw [if_pos habs] at hr
        exact ihm _ _ (by intro c hc; cases hc) r hr
      · rw [if_neg habs] at hr
        exact ihm _ _ ((sjWalk_good readlink root todo rel hrel).2 dest rest rel2 hw)
          r hr

/-- C5: Path containment: every host path produced by resolve_host_path
lies under the mount directory of the user's container — for every
symlink oracle, every mount directory and every container path, a
successful resolution is the mount directory with a list of plain
components (no "", "." or "..") appended below it, so no request path
can escape the mount. -/
theorem resolveHostPath_under_mount (readlink : Str → Option Str)
    (mountDir containerPath r : String)
    (h : resolveHostPath readlink mountDir containerPath = some r) :
    ∃ comps : List Str,
      (∀ c ∈ comps, c ≠ [] ∧ c ≠ ['.'] ∧ c ≠ ['.', '.']) ∧
      r = ⟨joinUnder mountDir.data comps⟩ := by
  unfold resolveHostPath secureJoin at h
  cases hsj : sjLoop readlink mountDir.data 255 []
      (splitOnChar '/' (trimPref containerPath.data ['/'])) with
  | none =>
    simp [hsj] at h
  | some comps =>
    simp only [hsj, Option.map_some', Option.some.injEq] at h
    exact ⟨comps,
      sjLoop_good readlink mountDir.data 255 _ [] (by intro c hc; cases hc) comps hsj,
      h.symm⟩

/-- Witness for C5: with no symlinks, "/a/../b" under mount "/mnt"
resolves to "/mnt/b", which is under the mount. -/
theorem resolveHostPath_under_mount_witness :
    resolveHostPath (fun _ => none) "/mnt" "/a/../b" = some "/mnt/b" ∧
    ∃ comps : List Str,
      (∀ c ∈ comps, c ≠ [] ∧ c ≠ ['.'] ∧ c ≠ ['.', '.']) ∧
      "/mnt/b" = (⟨joinUnder "/mnt".data comps⟩ : String) :=
  ⟨by decide, resolveHostPath_under_mount (fun _ => none) "/mnt" "/a/../b" "/mnt/b"
    (by decide)⟩

/-- C6 counterexample: the relative request path "../x" is resolved to
"/x", which resolveContainerPath accepts although it lies outside the
data mount "/data" — relative request paths are joined and cleaned but
never re-checked for containment. -/
theorem resolveContainerPath_relative_escape :
    resolveContainerPath "/data" "../x" = .ok "/x" ∧
    pathWithin "/x".data "/data".data = false := ⟨rfl, by decide⟩

/-- C6 amended: for a valid absolute data mount, an absolute request
path whose lexical cleaning is not within the mount fails with
InvalidArgument ("path outside data mount") before any host filesystem
access (the Read handler returns 400 for every file map); an absolute
cleaned path within the mount is accepted as is; and a relative request
path is joined under the mount and lexically cleaned — but the join may
lie outside the mount when ".." components escape it. -/
theorem resolveContainerPath_behaviour (dataMount requestPath : String)
    (hdot : pathClean dataMount.data ≠ ['.'])
    (habs : strHasPref (pathClean dataMount.data) ['/'] = true)
    (hreq : requestPath ≠ "") :
    (isAbs (pathClean requestPath.data) = true →
      pathWithin (pathClean requestPath.data) (pathClean dataMount.data) = false →
      resolveContainerPath dataMount requestPath
        = .error "path outside data mount") ∧
    (isAbs (pathClean requestPath.data) = true →
      pathWithin (pathClean requestPath.data) (pathClean dataMount.data) = true →
      resolveContainerPath dataMount requestPath
        = .ok ⟨pathClean requestPath.data⟩) ∧
    (isAbs (pathClean requestPath.data) = false →
      resolveContainerPath dataMount requestPath
        = .ok ⟨goPathJoin (pathClean dataMount.data) (pathClean requestPath.data)⟩) ∧
    (∀ readlink mountDir files userID,
      validateUserID userID = .ok () →
      isAbs (pathClean requestPath.data) = true →
      pathWithin (pathClean requestPath.data) (pathClean dataMount.data) = false →
      fsRead readlink dataMount mountDir files userID requestPath
        = .httpError 400 "path outside data mount") := by
  have hmount : ¬ (pathClean dataMount.data = ['.']
      ∨ ¬ strHasPref (pathClean dataMount.data) ['/']) := by
    simp [hdot, habs]
  refine ⟨?_, ?_, ?_, ?_⟩
  · intro hra hwf
    unfold resolveContainerPath
    rw [if_neg hmount, if_neg hreq, if_pos hra, if_pos (by simp [hwf])]
  · intro hra hwt
    unfold resolveContainerPath
    rw [if_neg hmount, if_neg hreq, if_pos hra, if_neg (by simp [hwt])]
  · intro hra
    unfold resolveContainerPath
    rw [if_neg hmount, if_neg hreq, if_neg (by simp [hra])]
  · intro readlink mountDir files userID hu hra hwf
    unfold fsRead
    simp only [hu]
    have hcp : resolveContainerPath dataMount requestPath
        = .error "path outside data mount" := by
      unfold resolveContainerPath
      rw [if_neg hmount, if_neg hreq, if_pos hra, if_pos (by simp [hwf])]
    simp only [hcp]

/-- Witness for C6's amended claim at the spec's scenario S6 plus a
relative path: "/data/../../etc/passwd" cleans to "/etc/passwd", is
rejected with 400 "path outside data mount" by path resolution and by
the Read handler, and the relative path "notes.txt" resolves to
"/data/notes.txt". -/
theorem resolveContainerPath_behaviour_witness :
    resolveContainerPath "/data" "/data/../../etc/passwd"
      = .error "path outside data mount" ∧
    fsRead (fun _ => none) "/data" "/mnt" (fun _ => none) "alice"
      "/data/../../etc/passwd" = .httpError 400 "path outside data mount" ∧
    resolveContainerPath "/data" "notes.txt" = .ok "/data/notes.txt" := by
  refine ⟨?_, ?_, ?_⟩
  · exact (resolveContainerPath_behaviour "/data" "/data/../../etc/passwd"
      (by decide) (by decide) (by decide)).1 (by decide) (by decide)
  · exact (resolveContainerPath_behaviour "/data" "/data/../../etc/passwd"
      (by decide) (by decide) (by decide)).2.2.2 (fun _ => none) "/mnt"
      (fun _ => none) "alice" rfl (by decide) (by decide)
  · exact (resolveContainerPath_behaviour "/data" "notes.txt"
      (by decide) (by decide) (by decide)).2.2.1 (by decide)

/-- C7: the user-id gate: validation succeeds exactly on non-empty
strings whose characters all lie in [A-Za-z0-9_-]; and whenever
validation fails (empty id or any character outside the set), the FS
endpoints answer HTTP 400 with the validation message for every file
map, mount directory and symlink oracle, leaving the file map unchanged
— so the failure happens before any runtime, database or host
filesystem access. -/
theorem validateUserID_charset (s : String) :
    (validateUserID s = .ok () ↔
      s ≠ "" ∧ ∀ c ∈ s.data, isUserIDChar c = true) ∧
    (∀ e, validateUserID s = .error e →
      ∀ readlink dataMount mountDir files path patch,
        fsApplyPatch readlink dataMount mountDir files s path patch
          = (.httpError 400 e, files) ∧
        fsRead readlink dataMount mountDir files s path
          = .httpError 400 e) := by
  constructor
  · unfold validateUserID
    by_cases hs : s = ""
    · simp [hs]
    · rw [if_neg hs]
      by_cases hall : s.data.all isUserIDChar
      · simp [hall, hs]
        exact List.all_eq_true.mp hall
      · simp [hall, hs]
        simpa [List.all_eq_true] using hall
  · intro e he readlink dataMount mountDir files path patch
    constructor
    · unfold fsApplyPatch
      simp only [he]
    · unfold fsRead
      simp only [he]

/-- Witness for C7: "a b" contains a space, validation rejects it, and
both modelled endpoints answer 400 with the validation error for an
arbitrary file map, which is returned unchanged. -/
theorem validateUserID_charset_witness :
    validateUserID "a b" = .error "invalid argument: invalid user id" ∧
    fsApplyPatch (fun _ => none) "/data" "/mnt" (fun _ => none) "a b"
      "/data/a" "@@ -1 +1 @@"
      = (.httpError 400 "invalid argument: invalid user id", fun _ => none) ∧
    fsRead (fun _ => none) "/data" "/mnt" (fun _ => none) "a b" "/data/a"
      = .httpError 400 "invalid argument: invalid user id" :=
  ⟨rfl,
   ((validateUserID_charset "a b").2 _ rfl (fun _ => none) "/data" "/mnt"
     (fun _ => none) "/data/a" "@@ -1 +1 @@").1,
   ((validateUserID_charset "a b").2 _ rfl (fun _ => none) "/data" "/mnt"
     (fun _ => none) "/data/a" "@@ -1 +1 @@").2⟩

/-- A list prefix test succeeding means the list splits after it. -/
theorem isPrefixOf_exists (pre s : Str) (h : pre.isPrefixOf s = true) :
    ∃ t, s = pre ++ t := by
  induction pre generalizing s with
  | nil => exact ⟨s, rfl⟩
  | cons a p ih =>
    cases s with
    | nil => simp [List.isPrefixOf] at h
    | cons b s2 =>
      simp only [List.isPrefixOf, Bool.and_eq_true, beq_iff_eq] at h
      obtain ⟨rfl, h2⟩ := h
      obtain ⟨t, ht⟩ := ih s2 h2
      exact ⟨t, by rw [ht]; rfl⟩

/-- A list is a prefix of itself followed by anything. -/
theorem isPrefixOf_append_self (pre t : Str) :
    pre.isPrefixOf (pre ++ t) = true := by
  induction pre with
  | nil => simp [List.isPrefixOf]
  | cons a p ih => simp [List.isPrefixOf, ih]

/-- Inversion of expectPref. -/
theorem expectPref_eq (pre s r : Str) (h : expectPref pre s = some r) :
    s = pre ++ r := by
  unfold expectPref at h
  by_cases hp : pre.isPrefixOf s
  · rw [if_pos hp, Option.some.injEq] at h
    obtain ⟨t, ht⟩ := isPrefixOf_exists pre s hp
    subst h
    rw [ht, List.drop_left]
  · rw [if_neg hp] at h
    exact Option.noConfusion h

/-- takeWhile of an append whose first part wholly satisfies the
predicate. -/
theorem takeWhile_all_append (p : Char → Bool) (l1 l2 : Str)
    (h : ∀ c ∈ l1, p c = true) :
    (l1 ++ l2).takeWhile p = l1 ++ l2.takeWhile p := by
  induction l1 with
  | nil => simp
  | cons a t ih =>
    simp only [List.cons_append, List.takeWhile_cons,
      h a (List.mem_cons_self a t), if_true]
    rw [ih (fun c hc => h c (List.mem_cons_of_mem a hc))]

/-- dropWhile of an append whose first part wholly satisfies the
predicate. -/
theorem dropWhile_all_append (p : Char → Bool) (l1 l2 : Str)
    (h : ∀ c ∈ l1, p c = true) :
    (l1 ++ l2).dropWhile p = l2.dropWhile p := by
  induction l1 with
  | nil => simp
  | cons a t ih =>
    simp only [List.cons_append, List.dropWhile_cons,
      h a (List.mem_cons_self a t), if_true]
    exact ih (fun c hc => h c (List.mem_cons_of_mem a hc))

/-- Inversion of takeDigits1. -/
theorem takeDigits1_eq (s ds r : Str) (h : takeDigits1 s = some (ds, r)) :
    s = ds ++ r ∧ ds ≠ [] ∧ ∀ c ∈ ds, isDigitCh c = true := by
  unfold takeDigits1 at h
  by_cases hne : s.takeWhile isDigitCh = []
  · rw [if_pos hne] at h
    exact Option.noConfusion h
  · rw [if_neg hne, Option.some.injEq, Prod.mk.injEq] at h
    obtain ⟨h1, h2⟩ := h
    subst h1
    subst h2
    have hd : s.drop (s.takeWhile isDigitCh).length = s.dropWhile isDigitCh := by
      clear hne
      induction s with
      | nil => rfl
      | cons a t ih =>
        by_cases hp : isDigitCh a
        · simp [List.takeWhile_cons, List.dropWhile_cons, hp, ih]
        · simp [List.takeWhile_cons, List.dropWhile_cons, hp]
    refine ⟨?_, hne, ?_⟩
    · rw [hd, List.takeWhile_append_dropWhile]
    · intro c hc
      exact List.mem_takeWhile_imp hc

/-- Inversion of optCount. -/
theorem optCount_eq (s r : Str) (h : optCount s = some r) :
    s = r ∨ ∃ cs, cs ≠ [] ∧ (∀ c ∈ cs, isDigitCh c = true) ∧
      s = ',' :: (cs ++ r) := by
  unfold optCount at h
  split at h
  · rename_i r1
    cases htd : takeDigits1 r1 with
    | none =>
      rw [htd] at h
      exact Option.noConfusion h
    | some pr =>
      rw [htd, Option.some.injEq] at h
      subst h
      obtain ⟨he, hne, hall⟩ := takeDigits1_eq r1 pr.1 pr.2 (by rw [htd])
      right
      exact ⟨pr.1, hne, hall, by rw [he]⟩
  · rw [Option.some.injEq] at h
    subst h
    left
    rfl

/-- trimPref of an explicit append. -/
theorem trimPref_append (pre t : Str) : trimPref (pre ++ t) pre = t := by
  unfold trimPref
  rw [if_pos (isPrefixOf_append_self pre t), List.drop_left]

/-- trimSpace of a string of the form " -u@": one leading space is
removed and nothing is trimmed at the '@' end. -/
theorem trimSpace_wrapped (u : Str) :
    trimSpace (' ' :: '-' :: (u ++ ['@'])) = '-' :: (u ++ ['@']) := by
  unfold trimSpace
  rw [List.dropWhile_cons, if_pos (by decide), List.dropWhile_cons,
    if_neg (by decide)]
  have hrev : ('-' :: (u ++ ['@'])).reverse = '@' :: (u.reverse ++ ['-']) := by
    simp
  rw [hrev, List.dropWhile_cons, if_neg (by decide), ← hrev, List.reverse_reverse]

/-- splitN2 at the first separator of an explicit append whose first
part is separator-free. -/
theorem splitN2_of_append (sep : Char) (l1 l2 : Str)
    (h : ∀ c ∈ l1, c ≠ sep) :
    splitN2 sep (l1 ++ sep :: l2) = [l1, l2] := by
  unfold splitN2
  have hc : (l1 ++ sep :: l2).contains sep = true :=
    List.elem_eq_true_of_mem (by simp)
  rw [if_pos hc]
  have ht : (l1 ++ sep :: l2).takeWhile (· ≠ sep) = l1 := by
    rw [takeWhile_all_append (· ≠ sep) l1 (sep :: l2) (by simpa using h)]
    simp [List.takeWhile_cons]
  have hd : (l1 ++ sep :: l2).dropWhile (· ≠ sep) = sep :: l2 := by
    rw [dropWhile_all_append (· ≠ sep) l1 (sep :: l2) (by simpa using h)]
    simp [List.dropWhile_cons]
  rw [ht, hd]
  simp

/-- splitN2 of a separator-free string. -/
theorem splitN2_of_no_sep (sep : Char) (l : Str) (h : ∀ c ∈ l, c ≠ sep) :
    splitN2 sep l = [l] := by
  unfold splitN2
  rw [if_neg]
  intro hc
  exact h sep (by simpa using List.mem_of_elem_eq_true hc) rfl

/-- goAtoi on a pure digit string within the int64 range. -/
theorem goAtoi_digits (ds : Str) (hne : ds ≠ [])
    (hall : ∀ c ∈ ds, isDigitCh c = true)
    (hlo : -(2 ^ 63) ≤ digitsVal ds) (hhi : digitsVal ds ≤ 2 ^ 63 - 1) :
    goAtoi ds = .ok (digitsVal ds) := by
  obtain ⟨d, t, rfl⟩ : ∃ d t, ds = d :: t := by
    cases ds with
    | nil => exact absurd rfl hne
    | cons d t => exact ⟨d, t, rfl⟩
  have hd : isDigitCh d = true := hall d (List.mem_cons_self d t)
  have hd1 : ¬ d = '+' := by
    intro hcontra
    subst hcontra
    exact absurd hd (by decide)
  have hd2 : ¬ d = '-' := by
    intro hcontra
    subst hcontra
    exact absurd hd (by decide)
  unfold goAtoi
  simp only [List.headD_cons]
  have hdig : (if d = '+' ∨ d = '-' then List.drop 1 (d :: t) else d :: t)
      = d :: t := by
    rw [if_neg]
    simp [hd1, hd2]
  rw [hdig, if_neg hd2]
  rw [if_neg (show ¬ d :: t = [] by simp)]
  rw [if_neg (not_not_intro (List.all_eq_true.mpr hall))]
  rw [if_neg (by simp only [one_mul]; push_neg; exact ⟨hlo, hhi⟩)]
  simp only [one_mul]

/-- A digit character differs from every non-digit character. -/
theorem isDigitCh_ne (c : Char) (h : isDigitCh c = true) (x : Char)
    (hx : isDigitCh x = false) : c ≠ x := by
  intro he
  subst he
  rw [h] at hx
  exact Bool.noConfusion hx

/-- C8 amended: hunk-header validation is lenient: every line matching
the spec's shape "@@ -orig_start[,orig_count] +new_start[,new_count] @@"
(with orig_start in the int64 range) is accepted with that orig_start —
but the parser checks only the "@@" prefix, the "-" field, the presence
of a space and the integer before the first comma, so some lines outside
the shape (such as "@@ -1 @@", missing the "+" section) are accepted as
well rather than rejected with "invalid hunk header". -/
theorem parseUnifiedHunkHeader_accepts_spec_shape (hdr : Str) (n : Int)
    (hs : specHunkHeaderParse hdr = some n)
    (hlo : -(2 ^ 63) ≤ n) (hhi : n ≤ 2 ^ 63 - 1) :
    parseUnifiedHunkHeader hdr = .ok n := by
  unfold specHunkHeaderParse at hs
  cases he1 : expectPref ['@', '@', ' ', '-'] hdr with
  | none => rw [he1] at hs; exact Option.noConfusion hs
  | some r1 =>
  simp only [he1] at hs
  cases he2 : takeDigits1 r1 with
  | none => rw [he2] at hs; exact Option.noConfusion hs
  | some dsr2 =>
  obtain ⟨ds, r2⟩ := dsr2
  simp only [he2] at hs
  cases he3 : optCount r2 with
  | none => rw [he3] at hs; exact Option.noConfusion hs
  | some r3 =>
  simp only [he3] at hs
  cases he4 : expectPref [' ', '+'] r3 with
  | none => rw [he4] at hs; exact Option.noConfusion hs
  | some r4 =>
  simp only [he4] at hs
  cases he5 : takeDigits1 r4 with
  | none => rw [he5] at hs; exact Option.noConfusion hs
  | some ds2r5 =>
  obtain ⟨ds2, r5⟩ := ds2r5
  simp only [he5] at hs
  cases he6 : optCount r5 with
  | none => rw [he6] at hs; exact Option.noConfusion hs
  | some r6 =>
  simp only [he6] at hs
  by_cases hr6 : r6 = [' ', '@', '@']
  case neg => rw [if_neg hr6] at hs; exact Option.noConfusion hs
  rw [if_pos hr6, Option.some.injEq] at hs
  subst hs
  -- invert the pieces
  have hh1 := expectPref_eq _ _ _ he1
  obtain ⟨hr1, hdsne, hdsdig⟩ := takeDigits1_eq _ _ _ he2
  have hr2 := optCount_eq _ _ he3
  have hh4 := expectPref_eq _ _ _ he4
  obtain ⟨hr4, hds2ne, hds2dig⟩ := takeDigits1_eq _ _ _ he5
  have hr5 := optCount_eq _ _ he6
  -- r4 ends with '@'
  have hu4 : ∃ u, r4 = u ++ ['@'] := by
    rcases hr5 with h5 | ⟨cs2, _, _, h5⟩
    · exact ⟨ds2 ++ [' ', '@'], by rw [hr4, h5, hr6]; simp⟩
    · exact ⟨ds2 ++ ',' :: cs2 ++ [' ', '@'], by rw [hr4, h5, hr6]; simp⟩
  obtain ⟨u4, hu4⟩ := hu4
  subst hh1
  -- the trimmed header is "-" ++ r1
  have hT : trimSpace (trimPref (['@', '@', ' ', '-'] ++ r1) ['@', '@'])
      = '-' :: r1 := by
    have ha : (['@', '@', ' ', '-'] ++ r1 : Str)
        = ['@', '@'] ++ (' ' :: '-' :: r1) := by simp
    rw [ha, trimPref_append]
    have hshape : ∃ u, r1 = u ++ ['@'] := by
      rcases hr2 with h2 | ⟨cs, _, _, h2⟩
      · exact ⟨ds ++ ' ' :: '+' :: u4, by rw [hr1, h2, hh4, hu4]; simp⟩
      · exact ⟨ds ++ ',' :: cs ++ ' ' :: '+' :: u4, by
          rw [hr1, h2, hh4, hu4]; simp⟩
    obtain ⟨u, hu⟩ := hshape
    rw [hu]
    exact trimSpace_wrapped u
  unfold parseUnifiedHunkHeader
  rw [hT]
  rw [if_neg (show ¬¬strHasPref ('-' :: r1) ['-'] = true by
    simp [strHasPref, List.isPrefixOf])]
  -- split at the first space
  rcases hr2 with h2 | ⟨cs, hcsne, hcsdig, h2⟩
  · have hsp : ('-' :: r1 : Str) = ('-' :: ds) ++ ' ' :: ('+' :: u4 ++ ['@']) := by
      rw [hr1, h2, hh4, hu4]
      simp
    rw [hsp, splitN2_of_append ' ' ('-' :: ds) ('+' :: u4 ++ ['@'])
      (by
        intro c hc
        rcases List.mem_cons.mp hc with rfl | hc2
        · decide
        · exact isDigitCh_ne c (hdsdig c hc2) ' ' (by decide))]
    simp only [List.length_cons, List.headD_cons]
    rw [if_neg (by simp)]
    have htp : trimPref ('-' :: ds) ['-'] = ds := trimPref_append ['-'] ds
    rw [htp, splitN2_of_no_sep ',' ds
      (fun c hc => isDigitCh_ne c (hdsdig c hc) ',' (by decide))]
    simp only [List.headD_cons]
    rw [goAtoi_digits ds hdsne hdsdig hlo hhi]
  · have hsp : ('-' :: r1 : Str)
        = ('-' :: (ds ++ ',' :: cs)) ++ ' ' :: ('+' :: u4 ++ ['@']) := by
      rw [hr1, h2, hh4, hu4]
      simp
    rw [hsp, splitN2_of_append ' ' ('-' :: (ds ++ ',' :: cs))
      ('+' :: u4 ++ ['@'])
      (by
        intro c hc
        rcases List.mem_cons.mp hc with rfl | hc2
        · decide
        · rcases List.mem_append.mp hc2 with hc3 | hc3
          · exact isDigitCh_ne c (hdsdig c hc3) ' ' (by decide)
          · rcases List.mem_cons.mp hc3 with rfl | hc4
            · decide
            · exact isDigitCh_ne c (hcsdig c hc4) ' ' (by decide))]
    simp only [List.length_cons, List.headD_cons]
    rw [if_neg (by simp)]
    have htp : trimPref ('-' :: (ds ++ ',' :: cs)) ['-'] = ds ++ ',' :: cs :=
      trimPref_append ['-'] (ds ++ ',' :: cs)
    rw [htp, splitN2_of_append ',' ds cs
      (fun c hc => isDigitCh_ne c (hdsdig c hc) ',' (by decide))]
    simp only [List.headD_cons]
    rw [goAtoi_digits ds hdsne hdsdig hlo hhi]

/-- C8 counterexample: "@@ -1 @@" begins with "@@" but does not match
the shape "@@ -orig_start[,orig_count] +new_start[,new_count] @@" (its
"+new_start" section is missing), yet parseUnifiedHunkHeader accepts it
and returns orig_start 1 instead of failing with
"invalid hunk header". -/
theorem parseUnifiedHunkHeader_accepts_malformed :
    parseUnifiedHunkHeader "@@ -1 @@".data = .ok 1 ∧
    specHunkHeaderParse "@@ -1 @@".data = none := ⟨rfl, rfl⟩

/-- Witness for C8's amended claim: the spec-shaped header
"@@ -2,1 +2,1 @@" parses strictly to orig_start 2 and is accepted by the
lenient parser with the same value. -/
theorem parseUnifiedHunkHeader_accepts_spec_shape_witness :
    specHunkHeaderParse "@@ -2,1 +2,1 @@".data = some 2 ∧
    parseUnifiedHunkHeader "@@ -2,1 +2,1 @@".data = .ok 2 :=
  ⟨rfl, parseUnifiedHunkHeader_accepts_spec_shape "@@ -2,1 +2,1 @@".data 2 rfl
    (by decide) (by decide)⟩

/-- The maximum of the versions s..s+k-1 is the last one. -/
theorem foldr_max_range' (k s : Nat) :
    (List.range' s k).foldr max 0 = if k = 0 then 0 else s + k - 1 := by
  induction k generalizing s with
  | zero => simp
  | succ m ih =>
    rw [List.range'_succ]
    simp only [List.foldr_cons, ih (s + 1)]
    by_cases hm : m = 0
    · subst hm
      simp
    · rw [if_neg hm, if_neg (Nat.succ_ne_zero m)]
      rw [Nat.max_def]
      split <;> omega

/-- One CreateVersion on a catalogue whose rows for container c are
exactly versions 1..k succeeds and extends them to 1..(k+1). -/
theorem createVersion_step (db : List VersionRow) (c : String) (sid : String)
    (k : Nat)
    (hk : (db.filter (fun r => r.containerID = c)).map (fun r => r.version)
      = List.range' 1 k) :
    createVersion db c sid = .ok (db ++ [(⟨c, k + 1, sid⟩ : VersionRow)]) ∧
    ((db ++ [(⟨c, k + 1, sid⟩ : VersionRow)]).filter (fun r => r.containerID = c)).map
      (fun r => r.version) = List.range' 1 (k + 1) := by
  have hnext : nextVersion db c = k + 1 := by
    unfold nextVersion
    rw [hk]
    rw [foldr_max_range' k 1]
    by_cases hk0 : k = 0
    · subst hk0
      simp
    · rw [if_neg hk0]
      omega
  have hmem : ∀ r ∈ db, r.containerID = c → r.version ∈ List.range' 1 k := by
    intro r hr hc
    rw [← hk]
    exact List.mem_map_of_mem _ (List.mem_filter.mpr ⟨hr, by simp [hc]⟩)
  have hnodup : ¬ db.any (fun r => r.containerID = c ∧ r.version = k + 1) := by
    intro hany
    obtain ⟨r, hr, hrc⟩ := List.any_eq_true.mp hany
    simp only [decide_eq_true_eq] at hrc
    have := hmem r hr hrc.1
    rw [hrc.2] at this
    rw [List.mem_range'] at this
    omega
  have hfilter : ((db ++ [(⟨c, k + 1, sid⟩ : VersionRow)]).filter
      (fun r => r.containerID = c)).map (fun r => r.version)
      = List.range' 1 (k + 1) := by
    rw [List.filter_append, List.map_append, hk]
    have h1 : (List.filter (fun r => decide (r.containerID = c))
        [(⟨c, k + 1, sid⟩ : VersionRow)]) = [⟨c, k + 1, sid⟩] := by
      simp
    rw [h1]
    simp only [List.map_cons, List.map_nil]
    rw [List.range'_concat]
    congr 2
    omega
  constructor
  · unfold createVersion insertVersion
    rw [hnext, if_neg hnodup]
  · exact hfilter

/-- Running N CreateVersion calls on a catalogue whose rows for c are
versions 1..k succeeds and leaves versions 1..(k+N). -/
theorem createVersionsN_dense_aux (c : String) (sid : Nat → String) :
    ∀ (N : Nat) (db : List VersionRow) (k : Nat),
      (db.filter (fun r => r.containerID = c)).map (fun r => r.version)
        = List.range' 1 k →
      ∃ db2, createVersionsN c sid N db = .ok db2 ∧
        (db2.filter (fun r => r.containerID = c)).map (fun r => r.version)
          = List.range' 1 (k + N) := by
  intro N
  induction N with
  | zero =>
    intro db k hk
    exact ⟨db, rfl, by simpa using hk⟩
  | succ M ih =>
    intro db k hk
    obtain ⟨hcv, hfil⟩ := createVersion_step db c (sid M) k hk
    obtain ⟨db2, hrun, hfil2⟩ :=
      ih (db ++ [(⟨c, k + 1, sid M⟩ : VersionRow)]) (k + 1) hfil
    refine ⟨db2, ?_, ?_⟩
    · simp only [createVersionsN, hcv]
      exact hrun
    · rw [hfil2]
      congr 1
      omega

/-- C9: Version density: next_version is MAX(version)+1 over the
container's rows (1 when none exist, embedded from the SQL), and after N
successful CreateVersion calls starting from a catalogue with no rows
for the container, the versions listed for it in ascending order are
exactly 1..N, with (container_id, version) unique (every insert passes
the schema's UNIQUE constraint and the listed versions are pairwise
distinct). -/
theorem createVersionsN_dense (c : String) (sid : Nat → String) (N : Nat)
    (db : List VersionRow)
    (hinit : db.filter (fun r => r.containerID = c) = []) :
    nextVersion db c = 1 ∧
    ∃ db2, createVersionsN c sid N db = .ok db2 ∧
      listVersions db2 c = List.range' 1 N ∧
      ((db2.filter (fun r => r.containerID = c)).map
        (fun r => r.version)).Nodup := by
  have hk : (db.filter (fun r => r.containerID = c)).map (fun r => r.version)
      = List.range' 1 0 := by
    rw [hinit]
    rfl
  obtain ⟨db2, hrun, hfil⟩ := createVersionsN_dense_aux c sid N db 0 hk
  simp only [Nat.zero_add] at hfil
  refine ⟨?_, db2, hrun, ?_, ?_⟩
  · unfold nextVersion
    rw [hinit]
    rfl
  · unfold listVersions
    rw [hfil]
    exact List.Sorted.insertionSort_eq
      ((List.pairwise_lt_range' 1 N).imp (fun h => le_of_lt h))
  · rw [hfil]
    exact List.nodup_range' 1 N

/-- Witness for C9: three creations on an empty catalogue yield versions
1, 2, 3 in order. -/
theorem createVersionsN_dense_witness :
    nextVersion [] "memoh-user-alice" = 1 ∧
    ∃ db2, createVersionsN "memoh-user-alice" (fun _ => "snap") 3 [] = .ok db2 ∧
      listVersions db2 "memoh-user-alice" = List.range' 1 3 ∧
      ((db2.filter (fun r => r.containerID = "memoh-user-alice")).map
        (fun r => r.version)).Nodup :=
  createVersionsN_dense "memoh-user-alice" (fun _ => "snap") 3 [] rfl
